import Mathlib

/-
  Verification of the floor-plan editor core:
  - geometry.ts (picking, snapping, polygon containment, wall construction)
  - useUndo.ts (present/past/future history manager)
  - WireframeEditor tool handlers (commit paths)

  JavaScript numbers are embedded as an arbitrary linear ordered field `K`
  (instantiated at ℚ for concrete evaluation and at ℝ where `Math.sqrt`
  matters). `Math.sqrt` is passed explicitly as a function argument `sqrt`
  to the one geometry routine that uses it. The JavaScript idiom `v || c`
  on a non-negative number `v` is embedded as `if v = 0 then c else v`.
-/

set_option maxRecDepth 20000
set_option linter.unusedSectionVars false

namespace FloorPlan

/-- A 2-D point `{x, y}` (geometry.ts `Point`). -/
structure Point (K : Type) where
  x : K
  y : K
deriving DecidableEq

variable {K : Type} [LinearOrderedField K]

/-- geometry.ts `dist2`: squared distance. -/
def dist2 (a b : Point K) : K :=
  (a.x - b.x) * (a.x - b.x) + (a.y - b.y) * (a.y - b.y)

/-- geometry.ts `add`. -/
def add (a b : Point K) : Point K := ⟨a.x + b.x, a.y + b.y⟩

/-- geometry.ts `sub`. -/
def sub (a b : Point K) : Point K := ⟨a.x - b.x, a.y - b.y⟩

/-- geometry.ts `mul`: point scaled by a number. -/
def mul (a : Point K) (k : K) : Point K := ⟨a.x * k, a.y * k⟩

/-- geometry.ts `dot`. -/
def dot (a b : Point K) : K := a.x * b.x + a.y * b.y

/-- geometry.ts `polygonTranslate`. -/
def polygonTranslate (poly : List (Point K)) (d : Point K) : List (Point K) :=
  poly.map (fun p => add p d)

/-- The body of the geometry.ts `pointInPolygon` ray-cast loop, running over the
pairs `(poly[i], poly[j])` where `j` is the index preceding `i` cyclically,
threading the `inside` parity flag. The `1e-12` added to the denominator is the
code's division-by-zero guard for horizontal edges. -/
def pipLoop (pt : Point K) : List (Point K × Point K) → Bool → Bool
  | [], inside => inside
  | pij :: rest, inside =>
    let intersect :=
      (decide (pij.1.y > pt.y) != decide (pij.2.y > pt.y)) &&
      decide (pt.x <
        (pij.2.x - pij.1.x) * (pt.y - pij.1.y) / (pij.2.y - pij.1.y + 1 / 10 ^ 12) + pij.1.x)
    pipLoop pt rest (if intersect then !inside else inside)

/-- geometry.ts `pointInPolygon`: parity ray casting.  The loop
`for (let i = 0, j = poly.length - 1; i < poly.length; j = i++)` visits the
pairs `(poly[0], poly[n-1]), (poly[1], poly[0]), …`, i.e. `poly` zipped with
its right-rotation (`List.rotate (n-1)` is rotation right by one). -/
def pointInPolygon (pt : Point K) (poly : List (Point K)) : Bool :=
  pipLoop pt (poly.zip (poly.rotate (poly.length - 1))) false

/-- geometry.ts `nearestPointOnSegment`: returns `(q, t)`.  The denominator is
`dot ab ab || 1e-12` (the JS guard for zero-length segments), and `t` is the
projection parameter clamped to `[0, 1]`. -/
def nearestPointOnSegment (p a b : Point K) : Point K × K :=
  let ab := sub b a
  let len2 := if dot ab ab = 0 then 1 / 10 ^ 12 else dot ab ab
  let t := max 0 (min 1 (dot (sub p a) ab / len2))
  (add a (mul ab t), t)

/-- geometry.ts `createWallRectangle`.  `sqrt` stands for `Math.sqrt`;
`len = Math.sqrt(dir.x*dir.x + dir.y*dir.y) || 1e-9` is embedded by replacing a
zero square root with `1e-9`. -/
def createWallRectangle (sqrt : K → K) (p1 p2 : Point K) (thickness : K) : List (Point K) :=
  let dir := sub p2 p1
  let len := if sqrt (dir.x * dir.x + dir.y * dir.y) = 0 then 1 / 10 ^ 9
             else sqrt (dir.x * dir.x + dir.y * dir.y)
  let n : Point K := ⟨-dir.y / len, dir.x / len⟩
  let off : Point K := ⟨n.x * (thickness / 2), n.y * (thickness / 2)⟩
  [add p1 off, sub p1 off, sub p2 off, add p2 off]

variable [FloorRing K]

/-- geometry.ts `snapToGrid`: each coordinate rounded to the nearest multiple of
`grid` (`Math.round` rounds half towards +∞, exactly like Mathlib's `round`). -/
def snapToGrid (p : Point K) (grid : K) : Point K :=
  ⟨((round (p.x / grid) : ℤ) : K) * grid, ((round (p.y / grid) : ℤ) : K) * grid⟩

/-- geometry.ts `edgesOf`: edge `i` joins `poly[i]` to `poly[(i+1) % n]`,
i.e. `poly` zipped with its left-rotation by one. -/
def edgesOf (poly : List (Point K)) : List (Point K × Point K) :=
  poly.zip (poly.rotate 1)

/-- A JS number that may be `Infinity`: `none` stands for `Infinity`, `some b`
for the finite value `b`.  `ltInfty d acc` is the JS comparison `d < acc`. -/
def ltInfty (d : K) : Option K → Bool
  | none => true
  | some b => decide (d < b)

/-- `leInfty t acc` is the JS comparison `acc <= t` for a possibly-`Infinity`
accumulator `acc` (`Infinity <= t` is false). -/
def leInfty (t : K) : Option K → Bool
  | none => false
  | some b => decide (b ≤ t)

/-- The inner edge-distance loop of geometry.ts `pickWall`: for each edge of
polygon number `i`, the squared distance from `pt` to the nearest point of the
edge is compared against the best squared distance so far (which starts out as
`Infinity`, i.e. `none`). -/
def scanEdges (pt : Point K) (i : Int) :
    List (Point K × Point K) → Int × Option K → Int × Option K
  | [], acc => acc
  | ab :: rest, acc =>
    let q := (nearestPointOnSegment pt ab.1 ab.2).1
    let d2 := dist2 pt q
    scanEdges pt i rest (if ltInfty d2 acc.2 then (i, some d2) else acc)

/-- The main loop of geometry.ts `pickWall`: a containing polygon returns its
index immediately (skipping the final tolerance test); otherwise the running
nearest-edge candidate is updated and, after the loop, kept only when its
squared distance is within `tol*tol`. -/
def pickWallLoop (pt : Point K) (tol2 : K) :
    List (List (Point K)) → Int → Int × Option K → Int
  | [], _, acc => if leInfty tol2 acc.2 then acc.1 else -1
  | poly :: rest, i, acc =>
    if pointInPolygon pt poly then i
    else pickWallLoop pt tol2 rest (i + 1) (scanEdges pt i (edgesOf poly) acc)

/-- geometry.ts `pickWall` (`best = -1`, `bestDist2 = Infinity` initially). -/
def pickWall (polys : List (List (Point K))) (pt : Point K) (tol : K) : Int :=
  pickWallLoop pt (tol * tol) polys 0 (-1, none)

/-- The loop of geometry.ts `pickVertex`, tracking `(best, bestD2)`. -/
def pickVertexLoop (pt : Point K) :
    List (Point K) → Int → Int × Option K → Int × Option K
  | [], _, acc => acc
  | v :: rest, i, acc =>
    let d2 := dist2 v pt
    pickVertexLoop pt rest (i + 1)
      (if ltInfty d2 acc.2 then (i, some d2) else acc)

/-- geometry.ts `pickVertex`: nearest vertex by squared distance, gated by
`bestD2 <= tol*tol`, `-1` otherwise. -/
def pickVertex (poly : List (Point K)) (pt : Point K) (tol : K) : Int :=
  let r := pickVertexLoop pt poly 0 (-1, none)
  if leInfty (tol * tol) r.2 then r.1 else -1

/-- useUndo.ts state: `present` plus the `past` and `future` stacks, which the
code pushes/pops at the tail of the arrays. -/
structure History (T : Type) where
  present : T
  past : List T
  future : List T
deriving DecidableEq

namespace History

variable {T : Type}

/-- useUndo.ts: the state right after `useUndo(initial)` mounts. -/
def init (initial : T) : History T := ⟨initial, [], []⟩

/-- useUndo.ts `set`: push `present` onto `past`, replace `present`, clear
`future`. -/
def set (h : History T) (next : T) : History T :=
  ⟨next, h.past ++ [h.present], []⟩

/-- useUndo.ts `undo`: no-op on empty `past`; else pop the tail of `past` into
`present` and push the old `present` onto `future`. -/
def undo (h : History T) : History T :=
  match h.past.getLast? with
  | none => h
  | some prev => ⟨prev, h.past.dropLast, h.future ++ [h.present]⟩

/-- useUndo.ts `redo`: no-op on empty `future`; else pop the tail of `future`
into `present` and push the old `present` onto `past`. -/
def redo (h : History T) : History T :=
  match h.future.getLast? with
  | none => h
  | some nxt => ⟨nxt, h.past ++ [h.present], h.future.dropLast⟩

/-- useUndo.ts `canUndo` flag. -/
def canUndo (h : History T) : Bool := !h.past.isEmpty

/-- useUndo.ts `canRedo` flag. -/
def canRedo (h : History T) : Bool := !h.future.isEmpty

end History

/-- WireframeEditor: a wall `{ boundary: Point[] }`. -/
structure Wall (K : Type) where
  boundary : List (Point K)
deriving DecidableEq

/-- WireframeEditor: a room `{ name, type, boundary }`. -/
structure Room (K : Type) where
  name : String
  type : String
  boundary : List (Point K)
deriving DecidableEq

/-- WireframeEditor: plan dimensions `{ width, height }`. -/
structure Dimensions (K : Type) where
  width : K
  height : K
deriving DecidableEq

/-- WireframeEditor: `ArchitecturalPlan`. -/
structure Plan (K : Type) where
  walls : List (Wall K)
  doors : List (Wall K)
  windows : List (Wall K)
  rooms : List (Room K)
  dimensions : Dimensions K
deriving DecidableEq

/-- The JavaScript `array.map((x, i) => …)` indexed map, with explicit start
index for structural recursion. -/
def mapWithIdx {α β : Type} (f : Nat → α → β) : Nat → List α → List β
  | _, [] => []
  | i, a :: rest => f i a :: mapWithIdx f (i + 1) rest

/-- WireframeEditor `handleMouseMove`, `move-wall` branch: the committed plan.
`d` is the incremental delta from the drag anchor to the current point;
with snap on, the delta is snapped to grid 1. -/
def moveWallCommit (plan : Plan K) (selWall : Nat) (startPt p : Point K) (snap : Bool) :
    Plan K :=
  let d : Point K := ⟨p.x - startPt.x, p.y - startPt.y⟩
  { plan with
    walls := mapWithIdx (fun i w =>
      if i ≠ selWall then w
      else ⟨polygonTranslate w.boundary (if snap then snapToGrid d 1 else d)⟩) 0 plan.walls }

/-- WireframeEditor `handleMouseMove`, `move-vertex` branch: the committed
plan. The dragged vertex is overwritten with the pointer position, snapped to
grid 5 when snap is on. -/
def moveVertexCommit (plan : Plan K) (selWall vertex : Nat) (p : Point K) (snap : Bool) :
    Plan K :=
  { plan with
    walls := mapWithIdx (fun i w =>
      if i ≠ selWall then w
      else ⟨w.boundary.set vertex (if snap then snapToGrid p 5 else p)⟩) 0 plan.walls }

/-- WireframeEditor `handleMouseDown`, delete branch: `pickWall` at tolerance 8
and, on a hit, `splice(wi, 1)`; the plan is unchanged (nothing is committed) on
a miss. -/
def deleteCommit (plan : Plan K) (p : Point K) : Plan K :=
  let wi := pickWall (plan.walls.map (fun w => w.boundary)) p 8
  if 0 ≤ wi then { plan with walls := plan.walls.eraseIdx wi.toNat } else plan

/-- WireframeEditor `handleMouseUp`, draw branch: append the preview rectangle
as a new wall. -/
def drawCommit (sqrt : K → K) (plan : Plan K) (startPt endPt : Point K) (thickness : K) :
    Plan K :=
  { plan with walls := plan.walls ++ [⟨createWallRectangle sqrt startPt endPt thickness⟩] }

/-- WireframeEditor `handleMouseDown`, extend branch, first click:
`pickWall` then `pickVertex` at tolerance 8; the stored `extendStart` session
on success. -/
def extendFirstClick (plan : Plan K) (p : Point K) : Option (Nat × Nat) :=
  let wi := pickWall (plan.walls.map (fun w => w.boundary)) p 8
  if 0 ≤ wi then
    let vi := pickVertex ((plan.walls.getD wi.toNat ⟨[]⟩).boundary) p 8
    if 0 ≤ vi then some (wi.toNat, vi.toNat) else none
  else none

/-- The extend branch's per-edge computation `const { q } =
nearestPointOnSegment(srcPt, a, b)`. -/
def edgeNearest (srcPt : Point K) (e : Point K × Point K) : Point K :=
  (nearestPointOnSegment srcPt e.1 e.2).1

/-- The extend branch's per-edge squared distance
`(q.x - srcPt.x) ** 2 + (q.y - srcPt.y) ** 2`. -/
def edgeDist2 (srcPt : Point K) (e : Point K × Point K) : K :=
  ((edgeNearest srcPt e).x - srcPt.x) ^ 2 + ((edgeNearest srcPt e).y - srcPt.y) ^ 2

/-- The `for (let i = 0; i < edges.length; i++)` loop of the extend branch:
tracks `(bestEdgeIdx, bestD, bestQ)`; `bestD` starts at `Infinity` (`none`) and
`bestQ` at the raw click point `p`; an edge strictly closer than the best so
far replaces it. -/
def bestEdgeScan (srcPt p : Point K) :
    List (Point K × Point K) → Nat → Nat × Option K × Point K → Nat × Option K × Point K
  | [], _, acc => acc
  | ab :: rest, i, acc =>
    bestEdgeScan srcPt p rest (i + 1)
      (if ltInfty (edgeDist2 srcPt ab) acc.2.1
       then (i, some (edgeDist2 srcPt ab), edgeNearest srcPt ab) else acc)

/-- WireframeEditor `handleMouseDown`, extend branch, second click: on a target
`pickWall` hit, project the stored source vertex onto the nearest edge of the
target wall and overwrite it (grid-snapped when snap is on); on a miss nothing
is committed. -/
def extendSecondClick (plan : Plan K) (src : Nat × Nat) (p : Point K) (snap : Bool) :
    Plan K :=
  let targetWall := pickWall (plan.walls.map (fun w => w.boundary)) p 8
  if 0 ≤ targetWall then
    let srcPt := ((plan.walls.getD src.1 ⟨[]⟩).boundary).getD src.2 ⟨0, 0⟩
    let edges := edgesOf (plan.walls.getD targetWall.toNat ⟨[]⟩).boundary
    let best := bestEdgeScan srcPt p edges 0 (0, none, p)
    let bestQ := best.2.2
    { plan with
      walls := mapWithIdx (fun wi w =>
        if wi ≠ src.1 then w
        else ⟨w.boundary.set src.2 (if snap then snapToGrid bestQ 5 else bestQ)⟩) 0 plan.walls }
  else plan

/-- The wall index picked by the second extend click (accessor used to state
the extend-projection claim). -/
def extendTargetIdx (plan : Plan K) (p : Point K) : Int :=
  pickWall (plan.walls.map (fun w => w.boundary)) p 8

/-- The coordinate of the stored source vertex (accessor used to state the
extend-projection claim). -/
def extendSrcPt (plan : Plan K) (w v : Nat) : Point K :=
  ((plan.walls.getD w ⟨[]⟩).boundary).getD v ⟨0, 0⟩

/-- The edges of the wall targeted by the second extend click (accessor used to
state the extend-projection claim). -/
def extendTargetEdges (plan : Plan K) (p : Point K) : List (Point K × Point K) :=
  edgesOf (plan.walls.getD (extendTargetIdx plan p).toNat ⟨[]⟩).boundary

/-- The coordinate of the source vertex after the extend commit (accessor used
to state the extend-projection claim). -/
def movedVertex (plan : Plan K) (w v : Nat) (p : Point K) (snap : Bool) : Point K :=
  (((extendSecondClick plan (w, v) p snap).walls.getD w ⟨[]⟩).boundary).getD v ⟨0, 0⟩

/-- Concrete two-wall plan exercising the extend tool: wall 0 is the unit-ish
square at the origin, wall 1 a square whose edges sit off the grid. -/
def planExtend : Plan ℚ :=
  { walls := [⟨[⟨0, 0⟩, ⟨10, 0⟩, ⟨10, 10⟩, ⟨0, 10⟩]⟩,
              ⟨[⟨3, 21⟩, ⟨13, 21⟩, ⟨13, 31⟩, ⟨3, 31⟩]⟩],
    doors := [], windows := [], rooms := [], dimensions := ⟨100, 100⟩ }

/-- The clamped projection parameter of `nearestPointOnSegment` lies in `[0,1]`. -/
theorem nps_param_mem (p a b : Point K) :
    0 ≤ (nearestPointOnSegment p a b).2 ∧ (nearestPointOnSegment p a b).2 ≤ 1 := by
  unfold nearestPointOnSegment
  exact ⟨le_max_left 0 _, max_le zero_le_one (min_le_left 1 _)⟩

/-- C1: for the history manager, after `set A` then `set B` from a freshly
mounted history, `undo` makes `present = A` with `canRedo = true`; a subsequent
`redo` restores `present = B`; and a `set C` performed after the `undo` empties
the `future` stack, so a subsequent `redo` is a no-op.  In general, `set next`
pushes the current `present` onto `past`, replaces `present` with `next`, and
clears `future` entirely. -/
theorem C1_history_set_undo_redo (T : Type) (I A B C : T) :
    ((((History.init I).set A).set B).undo.present = A) ∧
    ((((History.init I).set A).set B).undo.canRedo = true) ∧
    ((((History.init I).set A).set B).undo.redo.present = B) ∧
    (((((History.init I).set A).set B).undo.set C).future = []) ∧
    (((((History.init I).set A).set B).undo.set C).redo =
      ((((History.init I).set A).set B).undo.set C)) ∧
    (∀ (h : History T) (next : T),
      (h.set next).past = h.past ++ [h.present] ∧
      (h.set next).present = next ∧ (h.set next).future = []) :=
  ⟨rfl, rfl, rfl, rfl, rfl, fun _ _ => ⟨rfl, rfl, rfl⟩⟩

/-- C10: `undo` followed by `redo` restores any history state with a non-empty
`past` exactly, and `redo` followed by `undo` restores any state with a
non-empty `future` exactly. -/
theorem C10_undo_redo_roundtrip (T : Type) (h : History T) :
    (h.past ≠ [] → h.undo.redo = h) ∧ (h.future ≠ [] → h.redo.undo = h) := by
  obtain ⟨pres, past, future⟩ := h
  constructor
  · intro hne
    rcases List.eq_nil_or_concat past with rfl | ⟨l, a, rfl⟩
    · exact absurd rfl hne
    · simp [History.undo, History.redo, List.concat_eq_append,
        List.getLast?_concat, List.dropLast_concat]
  · intro hne
    rcases List.eq_nil_or_concat future with rfl | ⟨l, a, rfl⟩
    · exact absurd rfl hne
    · simp [History.undo, History.redo, List.concat_eq_append,
        List.getLast?_concat, List.dropLast_concat]

/-- Witness for C10 at a concrete history state over `ℕ`. -/
theorem C10_undo_redo_roundtrip_witness :
    ((History.mk 5 [1, 2] [9]).past ≠ [] ∧
      (History.mk 5 [1, 2] [9]).undo.redo = History.mk 5 [1, 2] [9]) ∧
    ((History.mk 5 [1, 2] [9]).future ≠ [] ∧
      (History.mk 5 [1, 2] [9]).redo.undo = History.mk 5 [1, 2] [9]) :=
  ⟨⟨by simp, (C10_undo_redo_roundtrip ℕ (History.mk 5 [1, 2] [9])).1 (by simp)⟩,
   ⟨by simp, (C10_undo_redo_roundtrip ℕ (History.mk 5 [1, 2] [9])).2 (by simp)⟩⟩

/-- C4: `snapToGrid` is idempotent: snapping an already-snapped point is a
no-op, for every point and every positive grid size. -/
theorem C4_snapToGrid_idempotent (p : Point K) (g : K) (hg : 0 < g) :
    snapToGrid (snapToGrid p g) g = snapToGrid p g := by
  unfold snapToGrid
  have hx : (((round (p.x / g) : ℤ) : K) * g) / g = ((round (p.x / g) : ℤ) : K) :=
    mul_div_cancel_right₀ _ hg.ne'
  have hy : (((round (p.y / g) : ℤ) : K) * g) / g = ((round (p.y / g) : ℤ) : K) :=
    mul_div_cancel_right₀ _ hg.ne'
  simp [hx, hy, round_intCast]

/-- Witness for C4: `(13, 22)` at grid 5 snaps to `(15, 20)` and re-snapping
changes nothing. -/
theorem C4_snapToGrid_idempotent_witness :
    (0 : ℚ) < 5 ∧
    snapToGrid (snapToGrid (⟨13, 22⟩ : Point ℚ) 5) 5 = snapToGrid (⟨13, 22⟩ : Point ℚ) 5 :=
  ⟨by norm_num, C4_snapToGrid_idempotent ⟨13, 22⟩ 5 (by norm_num)⟩

/-- C7 counterexample: the 2-vertex polygon `[(0,0), (1,1)]` and the point
`(-1/(2·10¹²), 0)`: the `1e-12` added to the denominator makes the two directed
traversals of the single segment compute different crossing thresholds, so the
parity toggles once and `pointInPolygon` returns `true` for a polygon with
fewer than 3 vertices, refuting the claim as stated. -/
theorem C7_pointInPolygon_counterexample :
    ([(⟨0, 0⟩ : Point ℚ), ⟨1, 1⟩].length < 3) ∧
    pointInPolygon (⟨-(1 / (2 * 10 ^ 12)), 0⟩ : Point ℚ) [⟨0, 0⟩, ⟨1, 1⟩] = true := by
  constructor
  · norm_num
  · norm_num [pointInPolygon, pipLoop, List.rotate]

/-- C7 (amended): `pointInPolygon` returns `false` (and is total, so it cannot
crash) for every polygon with fewer than 2 vertices; a 2-vertex polygon is
still handled without crashing but can return `true` because of the ε-perturbed
crossing thresholds. -/
theorem C7_pointInPolygon_degenerate (pt : Point K) (poly : List (Point K))
    (h : poly.length < 2) : pointInPolygon pt poly = false := by
  match poly, h with
  | [], _ => rfl
  | [a], _ => simp [pointInPolygon, pipLoop]

/-- Witness for the amended C7 at a concrete 1-vertex polygon. -/
theorem C7_pointInPolygon_degenerate_witness :
    ([(⟨7, 7⟩ : Point ℚ)].length < 2) ∧
    pointInPolygon (⟨0, 0⟩ : Point ℚ) [⟨7, 7⟩] = false :=
  ⟨by norm_num, C7_pointInPolygon_degenerate ⟨0, 0⟩ [⟨7, 7⟩] (by norm_num)⟩

/-- C8: `nearestPointOnSegment` is total: the effective denominator is never
zero (the ε minimum is substituted for a zero-length segment), the returned
parameter `t` always lies in `[0, 1]`, and the returned point is exactly
`a + t·(b - a)`, hence on the closed segment from `a` to `b`. -/
theorem C8_nearestPointOnSegment_total (p a b : Point K) :
    0 ≤ (nearestPointOnSegment p a b).2 ∧
    (nearestPointOnSegment p a b).2 ≤ 1 ∧
    (nearestPointOnSegment p a b).1 =
      add a (mul (sub b a) (nearestPointOnSegment p a b).2) ∧
    (if dot (sub b a) (sub b a) = 0 then (1 : K) / 10 ^ 12
     else dot (sub b a) (sub b a)) ≠ 0 := by
  refine ⟨(nps_param_mem p a b).1, (nps_param_mem p a b).2, rfl, ?_⟩
  split
  · positivity
  · assumption

/-- While some polygon of the remaining list contains the point, the `pickWall`
loop returns the offset `i` plus the index of the first containing polygon,
whatever the accumulator and tolerance are. -/
theorem pickWallLoop_inside (pt : Point K) (tol2 : K) :
    ∀ (l : List (List (Point K))) (i : Int) (acc : Int × Option K),
      (∃ poly ∈ l, pointInPolygon pt poly = true) →
      pickWallLoop pt tol2 l i acc =
        i + ((l.findIdx fun poly => pointInPolygon pt poly : ℕ) : Int) := by
  intro l
  induction l with
  | nil => intro i acc h; simp at h
  | cons a l ih =>
    intro i acc h
    by_cases hpip : pointInPolygon pt a = true
    · simp [pickWallLoop, hpip, List.findIdx_cons]
    · have h2 : ∃ poly ∈ l, pointInPolygon pt poly = true := by
        rcases h with ⟨poly, hmem, hp⟩
        rcases List.mem_cons.mp hmem with rfl | hmem2
        · exact absurd hp hpip
        · exact ⟨poly, hmem2, hp⟩
      have hfalse : pointInPolygon pt a = false := by rwa [Bool.not_eq_true] at hpip
      rw [pickWallLoop, if_neg hpip, ih (i + 1) _ h2, List.findIdx_cons, hfalse]
      simp only [Bool.cond_false]
      push_cast
      ring

/-- C2: whenever the point lies inside at least one polygon (in the sense of
the kernel's ray-cast test), `pickWall` returns the index of the first
containing polygon in array order, for every tolerance — containment
short-circuits before any edge-distance computation. -/
theorem C2_pickWall_containment_first (polys : List (List (Point K))) (pt : Point K) (tol : K)
    (h : ∃ poly ∈ polys, pointInPolygon pt poly = true) :
    pickWall polys pt tol =
      ((polys.findIdx fun poly => pointInPolygon pt poly : ℕ) : Int) := by
  unfold pickWall
  rw [pickWallLoop_inside pt (tol * tol) polys 0 _ h]
  simp

/-- Witness for C2: the point `(1,1)` inside the first (and only) square is
picked at tolerance 0. -/
theorem C2_pickWall_containment_first_witness :
    (∃ poly ∈ [[(⟨0, 0⟩ : Point ℚ), ⟨10, 0⟩, ⟨10, 10⟩, ⟨0, 10⟩]],
      pointInPolygon ⟨1, 1⟩ poly = true) ∧
    pickWall [[(⟨0, 0⟩ : Point ℚ), ⟨10, 0⟩, ⟨10, 10⟩, ⟨0, 10⟩]] ⟨1, 1⟩ 0 = 0 := by
  have hex : ∃ poly ∈ [[(⟨0, 0⟩ : Point ℚ), ⟨10, 0⟩, ⟨10, 10⟩, ⟨0, 10⟩]],
      pointInPolygon ⟨1, 1⟩ poly = true :=
    ⟨_, List.mem_cons_self _ _, by norm_num [pointInPolygon, pipLoop, List.rotate]⟩
  refine ⟨hex, (C2_pickWall_containment_first _ _ _ hex).trans ?_⟩
  norm_num [List.findIdx_cons, pointInPolygon, pipLoop, List.rotate]

/-- If every element under the accumulator is known to exceed `t`, `leInfty`
is false. -/
theorem leInfty_eq_false (t : K) (acc : Option K) (h : ∀ b, acc = some b → t < b) :
    leInfty t acc = false := by
  cases acc with
  | none => rfl
  | some b =>
    simp only [leInfty, decide_eq_false_iff_not, not_le]
    exact h b rfl

/-- The `pickWall` edge scan keeps the best squared distance above `tol2` when
every edge of the scanned list is farther than `tol2` and the accumulator
already is. -/
theorem scanEdges_far (pt : Point K) (tol2 : K) (i : Int) :
    ∀ (es : List (Point K × Point K)) (acc : Int × Option K),
      (∀ e ∈ es, tol2 < dist2 pt (nearestPointOnSegment pt e.1 e.2).1) →
      (∀ b, acc.2 = some b → tol2 < b) →
      ∀ b, (scanEdges pt i es acc).2 = some b → tol2 < b := by
  intro es
  induction es with
  | nil => intro acc _ hacc b hb; exact hacc b hb
  | cons e es ih =>
    intro acc hes hacc b hb
    rw [scanEdges] at hb
    refine ih _ (fun e2 he2 => hes e2 (List.mem_cons_of_mem _ he2)) ?_ b hb
    intro b2 hb2
    split at hb2
    · simp only [Prod.snd] at hb2
      cases hb2
      exact hes e (List.mem_cons_self _ _)
    · exact hacc b2 hb2

/-- The `pickWall` loop returns `-1` when no remaining polygon contains the
point, every remaining edge is farther than `tol2`, and the accumulator is
farther than `tol2`. -/
theorem pickWallLoop_far (pt : Point K) (tol2 : K) :
    ∀ (l : List (List (Point K))) (i : Int) (acc : Int × Option K),
      (∀ poly ∈ l, pointInPolygon pt poly = false) →
      (∀ poly ∈ l, ∀ e ∈ edgesOf poly,
        tol2 < dist2 pt (nearestPointOnSegment pt e.1 e.2).1) →
      (∀ b, acc.2 = some b → tol2 < b) →
      pickWallLoop pt tol2 l i acc = -1 := by
  intro l
  induction l with
  | nil =>
    intro i acc _ _ hacc
    rw [pickWallLoop, leInfty_eq_false tol2 acc.2 hacc]
    rfl
  | cons a l ih =>
    intro i acc h1 h2 hacc
    have hpip : ¬ (pointInPolygon pt a = true) := by
      simp [h1 a (List.mem_cons_self _ _)]
    rw [pickWallLoop, if_neg hpip]
    refine ih (i + 1) _
      (fun poly hm => h1 poly (List.mem_cons_of_mem _ hm))
      (fun poly hm => h2 poly (List.mem_cons_of_mem _ hm))
      (scanEdges_far pt tol2 i (edgesOf a) acc
        (h2 a (List.mem_cons_self _ _)) hacc)

/-- The `pickVertex` loop keeps the best squared distance above `tol2` when
every vertex is farther than `tol2` and the accumulator is. -/
theorem pickVertexLoop_far (pt : Point K) (tol2 : K) :
    ∀ (l : List (Point K)) (i : Int) (acc : Int × Option K),
      (∀ v ∈ l, tol2 < dist2 v pt) →
      (∀ b, acc.2 = some b → tol2 < b) →
      ∀ b, (pickVertexLoop pt l i acc).2 = some b → tol2 < b := by
  intro l
  induction l with
  | nil => intro i acc _ hacc b hb; exact hacc b hb
  | cons v l ih =>
    intro i acc hl hacc b hb
    rw [pickVertexLoop] at hb
    refine ih (i + 1) _ (fun v2 hv2 => hl v2 (List.mem_cons_of_mem _ hv2)) ?_ b hb
    intro b2 hb2
    split at hb2
    · simp only [Prod.snd] at hb2
      cases hb2
      exact hl v (List.mem_cons_self _ _)
    · exact hacc b2 hb2

/-- C5: (a) when the point lies inside no polygon and the squared distance from
the point to the nearest point of every edge of every polygon strictly exceeds
`tol·tol` (i.e. the distance exceeds the tolerance), `pickWall` returns the
sentinel `-1`; (b) when every vertex is farther than the tolerance,
`pickVertex` returns `-1`.  Both functions are total, so they never throw. -/
theorem C5_pick_miss_returns_sentinel :
    (∀ (polys : List (List (Point K))) (pt : Point K) (tol : K),
      (∀ poly ∈ polys, pointInPolygon pt poly = false) →
      (∀ poly ∈ polys, ∀ e ∈ edgesOf poly,
        tol * tol < dist2 pt (nearestPointOnSegment pt e.1 e.2).1) →
      pickWall polys pt tol = -1) ∧
    (∀ (poly : List (Point K)) (pt : Point K) (tol : K),
      (∀ v ∈ poly, tol * tol < dist2 v pt) →
      pickVertex poly pt tol = -1) := by
  constructor
  · intro polys pt tol h1 h2
    exact pickWallLoop_far pt (tol * tol) polys 0 (-1, none) h1 h2 (by intro b hb; cases hb)
  · intro poly pt tol h
    have hfar := pickVertexLoop_far pt (tol * tol) poly 0 (-1, none) h
      (fun b hb => by cases hb)
    simp [pickVertex, leInfty_eq_false (tol * tol) _ hfar]

/-- Witness for C5: the point `(100,100)` against one square wall misses both
`pickWall` and `pickVertex` at tolerance 8. -/
theorem C5_pick_miss_returns_sentinel_witness :
    ((∀ poly ∈ [[(⟨0, 0⟩ : Point ℚ), ⟨10, 0⟩, ⟨10, 10⟩, ⟨0, 10⟩]],
        pointInPolygon ⟨100, 100⟩ poly = false) ∧
      (∀ poly ∈ [[(⟨0, 0⟩ : Point ℚ), ⟨10, 0⟩, ⟨10, 10⟩, ⟨0, 10⟩]], ∀ e ∈ edgesOf poly,
        (8 : ℚ) * 8 < dist2 ⟨100, 100⟩ (nearestPointOnSegment ⟨100, 100⟩ e.1 e.2).1) ∧
      pickWall [[(⟨0, 0⟩ : Point ℚ), ⟨10, 0⟩, ⟨10, 10⟩, ⟨0, 10⟩]] ⟨100, 100⟩ 8 = -1) ∧
    ((∀ v ∈ [(⟨0, 0⟩ : Point ℚ), ⟨10, 0⟩, ⟨10, 10⟩, ⟨0, 10⟩],
        (8 : ℚ) * 8 < dist2 v ⟨100, 100⟩) ∧
      pickVertex [(⟨0, 0⟩ : Point ℚ), ⟨10, 0⟩, ⟨10, 10⟩, ⟨0, 10⟩] ⟨100, 100⟩ 8 = -1) := by
  have h1 : ∀ poly ∈ [[(⟨0, 0⟩ : Point ℚ), ⟨10, 0⟩, ⟨10, 10⟩, ⟨0, 10⟩]],
      pointInPolygon ⟨100, 100⟩ poly = false := by
    intro poly hm
    rw [List.mem_singleton] at hm
    subst hm
    norm_num [pointInPolygon, pipLoop, List.rotate]
  have h2 : ∀ poly ∈ [[(⟨0, 0⟩ : Point ℚ), ⟨10, 0⟩, ⟨10, 10⟩, ⟨0, 10⟩]], ∀ e ∈ edgesOf poly,
      (8 : ℚ) * 8 < dist2 ⟨100, 100⟩ (nearestPointOnSegment ⟨100, 100⟩ e.1 e.2).1 := by
    intro poly hm e he
    rw [List.mem_singleton] at hm
    subst hm
    norm_num [edgesOf, List.rotate] at he
    rcases he with rfl | rfl | rfl | rfl <;>
      norm_num [nearestPointOnSegment, dist2, dot, sub, add, mul]
  have h3 : ∀ v ∈ [(⟨0, 0⟩ : Point ℚ), ⟨10, 0⟩, ⟨10, 10⟩, ⟨0, 10⟩],
      (8 : ℚ) * 8 < dist2 v ⟨100, 100⟩ := by
    intro v hv
    norm_num at hv
    rcases hv with rfl | rfl | rfl | rfl <;> norm_num [dist2]
  exact ⟨⟨h1, h2, C5_pick_miss_returns_sentinel.1 _ _ _ h1 h2⟩,
         ⟨h3, C5_pick_miss_returns_sentinel.2 _ _ _ h3⟩⟩

/-- `createWallRectangle` at `p1 = p2`: `Math.sqrt 0 = 0` triggers the `1e-9`
fallback denominator, the computed normal is the zero vector, and all four
returned vertices equal the degenerate endpoint. -/
theorem createWallRectangle_self (p : Point ℝ) (t : ℝ) :
    createWallRectangle Real.sqrt p p t = [p, p, p, p] := by
  have h0 : sub p p = (⟨0, 0⟩ : Point ℝ) := by simp [sub]
  norm_num [createWallRectangle, h0, Real.sqrt_zero, add, sub]

/-- C6 counterexample: at the degenerate input `p1 = p2 = (0,0)`, `t = 2`, the
code returns four copies of `p1`, so no offset of magnitude `t/2 = 1` produces
the returned quadrilateral: the `1e-9` fallback avoids division by zero, but
the offset has magnitude 0, not `t/2`, refuting the claim as stated. -/
theorem C6_createWallRectangle_counterexample :
    ¬ ∃ off : Point ℝ, off.x ^ 2 + off.y ^ 2 = ((2 : ℝ) / 2) ^ 2 ∧
      createWallRectangle Real.sqrt ⟨0, 0⟩ ⟨0, 0⟩ 2 =
        [add ⟨0, 0⟩ off, sub ⟨0, 0⟩ off, sub ⟨0, 0⟩ off, add ⟨0, 0⟩ off] := by
  rintro ⟨off, hmag, heq⟩
  rw [createWallRectangle_self] at heq
  simp only [List.cons.injEq, and_true] at heq
  have hx : off.x = 0 := by
    have := congrArg Point.x heq.1
    simpa [add] using this.symm
  have hy : off.y = 0 := by
    have := congrArg Point.y heq.1
    simpa [add] using this.symm
  rw [hx, hy] at hmag
  norm_num at hmag

/-- C6 (amended): `createWallRectangle` returns the four vertices
`p1 ± off, p2 ∓ off` for an offset `off` orthogonal to `p2 - p1`; when
`p1 ≠ p2` the offset has squared magnitude `(t/2)²` (it lies along the unit
normal scaled by `t/2`), but in the degenerate case `p1 = p2` the substituted
`1e-9` denominator avoids division by zero while the normal collapses to the
zero vector, so all four vertices equal `p1` and the offset has magnitude 0,
not `t/2`. -/
theorem C6_createWallRectangle_offsets (p1 p2 : Point ℝ) (t : ℝ) :
    (p1 ≠ p2 → ∃ off : Point ℝ,
      createWallRectangle Real.sqrt p1 p2 t =
        [add p1 off, sub p1 off, sub p2 off, add p2 off] ∧
      off.x ^ 2 + off.y ^ 2 = (t / 2) ^ 2 ∧
      dot off (sub p2 p1) = 0) ∧
    (p1 = p2 → createWallRectangle Real.sqrt p1 p2 t = [p1, p1, p1, p1]) := by
  constructor
  · intro hne
    have hs : 0 < (sub p2 p1).x * (sub p2 p1).x + (sub p2 p1).y * (sub p2 p1).y := by
      by_contra hle
      push_neg at hle
      have hx0 : (sub p2 p1).x = 0 := by
        refine mul_self_eq_zero.mp (le_antisymm ?_ (mul_self_nonneg _))
        have := mul_self_nonneg (sub p2 p1).y
        linarith
      have hy0 : (sub p2 p1).y = 0 := by
        refine mul_self_eq_zero.mp (le_antisymm ?_ (mul_self_nonneg _))
        have := mul_self_nonneg (sub p2 p1).x
        linarith
      apply hne
      have hx2 : p1.x = p2.x := by
        simp only [sub] at hx0
        linarith
      have hy2 : p1.y = p2.y := by
        simp only [sub] at hy0
        linarith
      cases p1
      cases p2
      simp only [Point.mk.injEq]
      exact ⟨hx2, hy2⟩
    have hlen : Real.sqrt ((sub p2 p1).x * (sub p2 p1).x + (sub p2 p1).y * (sub p2 p1).y) ≠ 0 :=
      (Real.sqrt_pos.mpr hs).ne'
    refine ⟨⟨-(sub p2 p1).y /
        Real.sqrt ((sub p2 p1).x * (sub p2 p1).x + (sub p2 p1).y * (sub p2 p1).y) * (t / 2),
        (sub p2 p1).x /
        Real.sqrt ((sub p2 p1).x * (sub p2 p1).x + (sub p2 p1).y * (sub p2 p1).y) * (t / 2)⟩,
      ?_, ?_, ?_⟩
    · simp only [createWallRectangle, if_neg hlen]
    · show (-(sub p2 p1).y /
          Real.sqrt ((sub p2 p1).x * (sub p2 p1).x + (sub p2 p1).y * (sub p2 p1).y) *
          (t / 2)) ^ 2 +
        ((sub p2 p1).x /
          Real.sqrt ((sub p2 p1).x * (sub p2 p1).x + (sub p2 p1).y * (sub p2 p1).y) *
          (t / 2)) ^ 2 = (t / 2) ^ 2
      field_simp
      linear_combination (-4 * t ^ 2) * Real.sq_sqrt hs.le
    · simp only [dot]
      ring
  · intro heq
    subst heq
    exact createWallRectangle_self p1 t

/-- Witness for the amended C6 at `p1 = (0,0)`, `p2 = (3,4)`, `t = 10`. -/
theorem C6_createWallRectangle_offsets_witness :
    ((⟨0, 0⟩ : Point ℝ) ≠ ⟨3, 4⟩) ∧
    (∃ off : Point ℝ,
      createWallRectangle Real.sqrt ⟨0, 0⟩ ⟨3, 4⟩ 10 =
        [add ⟨0, 0⟩ off, sub ⟨0, 0⟩ off, sub ⟨3, 4⟩ off, add ⟨3, 4⟩ off] ∧
      off.x ^ 2 + off.y ^ 2 = ((10 : ℝ) / 2) ^ 2 ∧
      dot off (sub ⟨3, 4⟩ ⟨0, 0⟩) = 0) := by
  have hne : (⟨0, 0⟩ : Point ℝ) ≠ ⟨3, 4⟩ := by
    intro hcon
    have := congrArg Point.x hcon
    norm_num at this
  exact ⟨hne, (C6_createWallRectangle_offsets ⟨0, 0⟩ ⟨3, 4⟩ 10).1 hne⟩

/-- `pointInPolygon` on an empty polygon is false (no loop iterations). -/
theorem pointInPolygon_nil (pt : Point K) : pointInPolygon pt ([] : List (Point K)) = false :=
  rfl

/-- A polygon has as many edges as vertices (`edgesOf` zips the polygon with
its rotation). -/
theorem length_edgesOf (poly : List (Point K)) : (edgesOf poly).length = poly.length := by
  simp [edgesOf]

/-- A non-empty polygon has a non-empty edge list. -/
theorem edgesOf_ne_nil (poly : List (Point K)) (h : poly ≠ []) : edgesOf poly ≠ [] := by
  intro hcon
  apply h
  have hlen := congrArg List.length hcon
  rw [length_edgesOf] at hlen
  exact List.length_eq_zero.mp hlen

/-- The `pickVertex` loop only ever stores indices between `-1` and the number
of scanned vertices. -/
theorem pickVertexLoop_fst_bound (pt : Point K) :
    ∀ (l : List (Point K)) (i : Int) (acc : Int × Option K),
      -1 ≤ acc.1 → acc.1 < i →
      -1 ≤ (pickVertexLoop pt l i acc).1 ∧
        (pickVertexLoop pt l i acc).1 < i + l.length := by
  intro l
  induction l with
  | nil =>
    intro i acc hge hlt
    simp only [pickVertexLoop, List.length_nil, Nat.cast_zero, add_zero]
    exact ⟨hge, hlt⟩
  | cons pv l ih =>
    intro i acc hge hlt
    simp only [pickVertexLoop]
    have hstep :
        -1 ≤ (if ltInfty (dist2 pv pt) acc.2 then (i, some (dist2 pv pt)) else acc).1 ∧
        (if ltInfty (dist2 pv pt) acc.2 then (i, some (dist2 pv pt)) else acc).1 < i + 1 := by
      split
      · exact ⟨by omega, by omega⟩
      · exact ⟨hge, by omega⟩
    obtain ⟨ha, hb⟩ := ih (i + 1) _ hstep.1 hstep.2
    refine ⟨ha, ?_⟩
    simp only [List.length_cons] at *
    push_cast at hb ⊢
    omega

/-- A non-negative `pickVertex` result is an in-range vertex index. -/
theorem pickVertex_mem (poly : List (Point K)) (pt : Point K) (tol : K)
    (h : 0 ≤ pickVertex poly pt tol) :
    (pickVertex poly pt tol).toNat < poly.length := by
  have hb := pickVertexLoop_fst_bound pt poly 0 (-1, none) (by norm_num) (by norm_num)
  by_cases hle : leInfty (tol * tol) (pickVertexLoop pt poly 0 (-1, none)).2 = true
  · simp only [pickVertex, hle, if_true] at h ⊢
    omega
  · rw [Bool.not_eq_true] at hle
    simp only [pickVertex, hle, Bool.false_eq_true, if_false] at h
    omega

/-- The edge scan of `pickWall` either keeps the accumulator's index or stores
the current polygon index `i` (the latter only when it scanned an edge). -/
theorem scanEdges_fst (pt : Point K) (i : Int) :
    ∀ (es : List (Point K × Point K)) (acc : Int × Option K),
      (scanEdges pt i es acc).1 = acc.1 ∨
        ((scanEdges pt i es acc).1 = i ∧ es ≠ []) := by
  intro es
  induction es with
  | nil => intro acc; left; rfl
  | cons e es ih =>
    intro acc
    simp only [scanEdges]
    split
    · rcases ih (i, some (dist2 pt (nearestPointOnSegment pt e.1 e.2).1)) with h | ⟨h, _⟩
      · right; exact ⟨h, by simp⟩
      · right; exact ⟨h, by simp⟩
    · rcases ih acc with h | ⟨h, _⟩
      · left; exact h
      · right; exact ⟨h, by simp⟩

/-- Every property `P` that holds of the index of each non-empty remaining
polygon, and of the accumulator index when non-negative, holds of a
non-negative `pickWallLoop` result. -/
theorem pickWallLoop_mem (pt : Point K) (tol2 : K) (P : Int → Prop) :
    ∀ (l : List (List (Point K))) (i : Int) (acc : Int × Option K),
      (0 ≤ acc.1 → P acc.1) →
      (∀ k : ℕ, k < l.length → l.getD k [] ≠ [] → P (i + (k : Int))) →
      0 ≤ pickWallLoop pt tol2 l i acc → P (pickWallLoop pt tol2 l i acc) := by
  intro l
  induction l with
  | nil =>
    intro i acc hacc _ hpos
    by_cases hle : leInfty tol2 acc.2 = true
    · rw [pickWallLoop, if_pos hle] at hpos ⊢
      exact hacc hpos
    · rw [pickWallLoop, if_neg hle] at hpos
      exact absurd hpos (by norm_num)
  | cons a l ih =>
    intro i acc hacc hl hpos
    by_cases hpip : pointInPolygon pt a = true
    · rw [pickWallLoop, if_pos hpip] at hpos ⊢
      have ha : a ≠ [] := by
        intro hnil
        rw [hnil] at hpip
        exact absurd hpip (by simp [pointInPolygon, pipLoop])
      have hP0 := hl 0 (by simp) (by simpa using ha)
      simpa using hP0
    · rw [pickWallLoop, if_neg hpip] at hpos ⊢
      refine ih (i + 1) _ ?_ ?_ hpos
      · intro hpos2
        rcases scanEdges_fst pt i (edgesOf a) acc with heq | ⟨heq, hne⟩
        · rw [heq] at hpos2 ⊢
          exact hacc hpos2
        · rw [heq] at hpos2 ⊢
          have ha : a ≠ [] := by
            intro hnil
            rw [hnil] at hne
            exact hne rfl
          have hP0 := hl 0 (by simp) (by simpa using ha)
          simpa using hP0
      · intro k hk hne
        have hPk := hl (k + 1) (by simpa using Nat.succ_lt_succ hk) (by simpa using hne)
        have he : i + ((k + 1 : ℕ) : Int) = (i + 1) + (k : Int) := by push_cast; ring
        rw [he] at hPk
        exact hPk

/-- A non-negative `pickWall` result is an in-range index of a polygon that is
non-empty (it was picked either by containment or by edge distance, and both
require at least one vertex). -/
theorem pickWall_mem (polys : List (List (Point K))) (pt : Point K) (tol : K)
    (h : 0 ≤ pickWall polys pt tol) :
    (pickWall polys pt tol).toNat < polys.length ∧
      polys.getD (pickWall polys pt tol).toNat [] ≠ [] := by
  rw [pickWall] at h ⊢
  have hP := pickWallLoop_mem pt (tol * tol)
    (fun j => 0 ≤ j ∧ j < (polys.length : Int) ∧ polys.getD j.toNat [] ≠ [])
    polys 0 (-1, none)
    (fun h0 => absurd h0 (by norm_num))
    (fun k hk hne => by
      refine ⟨by omega, by omega, ?_⟩
      have he : ((0 : Int) + (k : Int)).toNat = k := by omega
      rw [he]
      exact hne)
    h
  obtain ⟨h1, h2, h3⟩ := hP
  exact ⟨by omega, h3⟩

/-- The extend-branch edge scan: starting from an `Infinity` accumulator, it
returns the nearest point of some scanned edge whose stored squared distance is
minimal among all scanned edges (the accumulator survives only when the edge
list is empty). -/
theorem bestEdgeScan_spec (srcPt p : Point K) :
    ∀ (es : List (Point K × Point K)) (i : ℕ) (acc : ℕ × Option K × Point K),
      ((bestEdgeScan srcPt p es i acc).2 = acc.2 ∨
        ∃ e ∈ es, (bestEdgeScan srcPt p es i acc).2.2 = edgeNearest srcPt e ∧
          (bestEdgeScan srcPt p es i acc).2.1 = some (edgeDist2 srcPt e)) ∧
      (∀ e ∈ es, ∀ b, (bestEdgeScan srcPt p es i acc).2.1 = some b →
          b ≤ edgeDist2 srcPt e) ∧
      (∀ b, (bestEdgeScan srcPt p es i acc).2.1 = some b →
        ∀ b0, acc.2.1 = some b0 → b ≤ b0) ∧
      ((bestEdgeScan srcPt p es i acc).2.1 = none → acc.2.1 = none ∧ es = []) := by
  intro es
  induction es with
  | nil =>
    intro i acc
    refine ⟨Or.inl rfl, by simp, ?_, fun h => ⟨h, rfl⟩⟩
    intro b hb b0 hb0
    have hb2 : acc.2.1 = some b := hb
    rw [hb2] at hb0
    cases hb0
    exact le_refl b
  | cons e es ih =>
    intro i acc
    simp only [bestEdgeScan]
    by_cases hlt : ltInfty (edgeDist2 srcPt e) acc.2.1 = true
    · rw [if_pos hlt]
      obtain ⟨ihA, ihB, ihC, ihD⟩ := ih (i + 1) (i, some (edgeDist2 srcPt e), edgeNearest srcPt e)
      refine ⟨?_, ?_, ?_, ?_⟩
      · rcases ihA with heq | ⟨e2, he2, hq, hd⟩
        · right
          exact ⟨e, List.mem_cons_self _ _, by rw [heq], by rw [heq]⟩
        · right
          exact ⟨e2, List.mem_cons_of_mem _ he2, hq, hd⟩
      · intro e2 he2 b hb
        rcases List.mem_cons.mp he2 with rfl | he3
        · exact ihC b hb (edgeDist2 srcPt e2) rfl
        · exact ihB e2 he3 b hb
      · intro b hb b0 hb0
        have hble := ihC b hb (edgeDist2 srcPt e) rfl
        cases hacc : acc.2.1 with
        | none => rw [hacc] at hb0; cases hb0
        | some b1 =>
          rw [hacc] at hb0
          cases hb0
          have hltb : edgeDist2 srcPt e < b0 := by
            rw [hacc] at hlt
            simpa [ltInfty] using hlt
          exact le_of_lt (lt_of_le_of_lt hble hltb)
      · intro hnone
        obtain ⟨hn1, -⟩ := ihD hnone
        exact absurd hn1 (by simp)
    · rw [if_neg hlt]
      obtain ⟨ihA, ihB, ihC, ihD⟩ := ih (i + 1) acc
      have hup : ∀ b0, acc.2.1 = some b0 → b0 ≤ edgeDist2 srcPt e := by
        intro b0 hb0
        rw [hb0] at hlt
        rw [Bool.not_eq_true] at hlt
        simpa [ltInfty, not_lt] using hlt
      refine ⟨?_, ?_, ihC, ?_⟩
      · rcases ihA with heq | ⟨e2, he2, hq, hd⟩
        · left; exact heq
        · right; exact ⟨e2, List.mem_cons_of_mem _ he2, hq, hd⟩
      · intro e2 he2 b hb
        rcases List.mem_cons.mp he2 with rfl | he3
        · cases hacc : acc.2.1 with
          | none =>
            have : ltInfty (edgeDist2 srcPt e2) acc.2.1 = true := by
              rw [hacc]; rfl
            exact absurd this hlt
          | some b0 =>
            exact le_trans (ihC b hb b0 hacc) (hup b0 hacc)
        · exact ihB e2 he3 b hb
      · intro hnone
        obtain ⟨hn1, rfl⟩ := ihD hnone
        have : ltInfty (edgeDist2 srcPt e) acc.2.1 = true := by
          rw [hn1]; rfl
        exact absurd this hlt

/-- With a non-empty edge list and the code's initial accumulator, the extend
scan returns the nearest point of a minimizing edge. -/
theorem bestEdgeScan_found (srcPt p : Point K) (es : List (Point K × Point K))
    (hes : es ≠ []) :
    ∃ e ∈ es, (bestEdgeScan srcPt p es 0 (0, none, p)).2.2 = edgeNearest srcPt e ∧
      ∀ e2 ∈ es, edgeDist2 srcPt e ≤ edgeDist2 srcPt e2 := by
  obtain ⟨hA, hB, -, hD⟩ := bestEdgeScan_spec srcPt p es 0 (0, none, p)
  rcases hA with heq | ⟨e, he, hq, hd⟩
  · exfalso
    have hnone : (bestEdgeScan srcPt p es 0 (0, none, p)).2.1 = none := by rw [heq]
    exact hes (hD hnone).2
  · refine ⟨e, he, hq, ?_⟩
    intro e2 he2
    exact hB e2 he2 _ hd

/-- `getD` through the indexed map used by the editor's wall-array rebuilds. -/
theorem mapWithIdx_getD {α : Type} (f : ℕ → α → α) :
    ∀ (l : List α) (i k : ℕ) (d : α), k < l.length →
      (mapWithIdx f i l).getD k d = f (i + k) (l.getD k d) := by
  intro l
  induction l with
  | nil => intro i k d h; simp at h
  | cons a l ih =>
    intro i k d h
    cases k with
    | zero => simp [mapWithIdx]
    | succ k =>
      simp only [mapWithIdx, List.getD_cons_succ]
      rw [ih (i + 1) k d (by simpa using Nat.lt_of_succ_lt_succ h)]
      congr 1
      omega

/-- `getD` after `List.set` at the same in-range index returns the new value. -/
theorem getD_set_self {α : Type} :
    ∀ (l : List α) (v : ℕ) (x d : α), v < l.length → (l.set v x).getD v d = x := by
  intro l
  induction l with
  | nil => intro v x d h; simp at h
  | cons a l ih =>
    intro v x d h
    cases v with
    | zero => rfl
    | succ v =>
      simp only [List.set_cons_succ, List.getD_cons_succ]
      exact ih v x d (by simpa using Nat.lt_of_succ_lt_succ h)

/-- `getD` through `map boundary` agrees with the boundary of the `getD` wall
at in-range indices. -/
theorem getD_map_boundary (walls : List (Wall K)) (k : ℕ) (h : k < walls.length) :
    (walls.map fun w => w.boundary).getD k [] = (walls.getD k ⟨[]⟩).boundary := by
  rw [List.getD_eq_getElem _ _ (by simpa using h), List.getD_eq_getElem _ _ h,
    List.getElem_map]

/-- C3 counterexample: in the editor's default configuration (snap on, grid 5),
a successful extend commit on the concrete plan `planExtend` — first click
`(1,1)` picks wall 0 vertex 0, second click `(4,22)` picks wall 1 — moves the
source vertex to the grid-snapped point `(5,20)`, which differs from the
nearest point on every edge of the target wall, refuting the claim that the
committed coordinate equals `nearestPointOnSegment` on the chosen edge. -/
theorem C3_extend_counterexample :
    extendFirstClick planExtend ⟨1, 1⟩ = some (0, 0) ∧
    0 ≤ extendTargetIdx planExtend ⟨4, 22⟩ ∧
    movedVertex planExtend 0 0 (⟨4, 22⟩ : Point ℚ) true = ⟨5, 20⟩ ∧
    ∀ e ∈ extendTargetEdges planExtend ⟨4, 22⟩,
      movedVertex planExtend 0 0 (⟨4, 22⟩ : Point ℚ) true ≠
        edgeNearest (extendSrcPt planExtend 0 0) e := by
  refine ⟨?_, ?_, ?_, ?_⟩
  · norm_num [extendFirstClick, planExtend, pickWall, pickWallLoop, pointInPolygon, pipLoop,
      List.rotate, scanEdges, edgesOf, nearestPointOnSegment, dist2, dot, sub, add, mul,
      pickVertex, pickVertexLoop, ltInfty, leInfty]
  · norm_num [extendTargetIdx, planExtend, pickWall, pickWallLoop, pointInPolygon, pipLoop,
      List.rotate, scanEdges, edgesOf, nearestPointOnSegment, dist2, dot, sub, add, mul,
      ltInfty, leInfty]
  · norm_num [movedVertex, extendSecondClick, planExtend, pickWall, pickWallLoop,
      pointInPolygon, pipLoop, List.rotate, scanEdges, edgesOf, nearestPointOnSegment,
      dist2, dot, sub, add, mul, bestEdgeScan, edgeNearest, edgeDist2, snapToGrid, round_eq,
      mapWithIdx, ltInfty, leInfty]
  · intro e he
    norm_num [extendTargetEdges, extendTargetIdx, planExtend, pickWall, pickWallLoop,
      pointInPolygon, pipLoop, List.rotate, scanEdges, edgesOf, nearestPointOnSegment,
      dist2, dot, sub, add, mul, ltInfty, leInfty] at he
    rcases he with rfl | rfl | rfl | rfl <;>
      norm_num [movedVertex, extendSecondClick, planExtend, pickWall, pickWallLoop,
        pointInPolygon, pipLoop, List.rotate, scanEdges, edgesOf, nearestPointOnSegment,
        dist2, dot, sub, add, mul, bestEdgeScan, edgeNearest, edgeDist2, snapToGrid,
        round_eq, mapWithIdx, ltInfty, leInfty, extendSrcPt]

/-- C3 (amended): with grid snapping disabled, after a successful extend commit
(first click hits a source wall and vertex, second click hits a target wall)
the moved vertex's new coordinate is exactly `nearestPointOnSegment` of the
source point against the endpoints of an edge of the target wall that
minimizes the squared distance to the source point, with clamped parameter `t`
in `[0,1]`; with snapping enabled (the editor default) the committed
coordinate is instead `snapToGrid` of that point, which the counterexample
shows can lie off the edge. -/
theorem C3_extend_projection (plan : Plan K) (p1 p2 : Point K) (w v : ℕ)
    (h1 : extendFirstClick plan p1 = some (w, v))
    (h2 : 0 ≤ extendTargetIdx plan p2) :
    ∃ e ∈ extendTargetEdges plan p2,
      movedVertex plan w v p2 false = edgeNearest (extendSrcPt plan w v) e ∧
      0 ≤ (nearestPointOnSegment (extendSrcPt plan w v) e.1 e.2).2 ∧
      (nearestPointOnSegment (extendSrcPt plan w v) e.1 e.2).2 ≤ 1 ∧
      ∀ e2 ∈ extendTargetEdges plan p2,
        edgeDist2 (extendSrcPt plan w v) e ≤ edgeDist2 (extendSrcPt plan w v) e2 := by
  simp only [extendFirstClick] at h1
  by_cases hwi : 0 ≤ pickWall (plan.walls.map fun w2 => w2.boundary) p1 8
  case neg => rw [if_neg hwi] at h1; cases h1
  rw [if_pos hwi] at h1
  by_cases hvi : 0 ≤ pickVertex
      ((plan.walls.getD (pickWall (plan.walls.map fun w2 => w2.boundary) p1 8).toNat
        ⟨[]⟩).boundary) p1 8
  case neg => rw [if_neg hvi] at h1; cases h1
  rw [if_pos hvi, Option.some.injEq, Prod.mk.injEq] at h1
  obtain ⟨hw, hv⟩ := h1
  have hwall := pickWall_mem (plan.walls.map fun w2 => w2.boundary) p1 8 hwi
  have hwlen : w < plan.walls.length := by
    rw [← hw]
    have := hwall.1
    simpa using this
  have hvlen : v < (plan.walls.getD w ⟨[]⟩).boundary.length := by
    rw [← hv, ← hw]
    exact pickVertex_mem _ p1 8 hvi
  have h2b : 0 ≤ pickWall (plan.walls.map fun w2 => w2.boundary) p2 8 := h2
  have htgt := pickWall_mem (plan.walls.map fun w2 => w2.boundary) p2 8 h2b
  have htlen : (pickWall (plan.walls.map fun w2 => w2.boundary) p2 8).toNat <
      plan.walls.length := by
    have := htgt.1
    simpa using this
  have htb : (plan.walls.getD
      (pickWall (plan.walls.map fun w2 => w2.boundary) p2 8).toNat ⟨[]⟩).boundary ≠ [] := by
    have := htgt.2
    rwa [getD_map_boundary _ _ htlen] at this
  have hedges : extendTargetEdges plan p2 ≠ [] := by
    simp only [extendTargetEdges, extendTargetIdx]
    exact edgesOf_ne_nil _ htb
  have hmove : movedVertex plan w v p2 false =
      (bestEdgeScan (extendSrcPt plan w v) p2 (extendTargetEdges plan p2) 0
        (0, none, p2)).2.2 := by
    simp only [movedVertex, extendSecondClick, extendTargetEdges, extendTargetIdx,
      extendSrcPt]
    rw [if_pos h2b]
    rw [mapWithIdx_getD _ plan.walls 0 w _ hwlen]
    rw [if_neg (show ¬(0 + w ≠ w) from fun hc => hc (Nat.zero_add w))]
    simp only [Bool.false_eq_true, if_false]
    rw [getD_set_self _ _ _ _ hvlen]
  obtain ⟨e, he, hq, hmin⟩ :=
    bestEdgeScan_found (extendSrcPt plan w v) p2 (extendTargetEdges plan p2) hedges
  exact ⟨e, he, by rw [hmove, hq], (nps_param_mem _ _ _).1, (nps_param_mem _ _ _).2, hmin⟩

/-- Witness for the amended C3 on `planExtend` with snapping off: the vertex is
moved exactly onto the nearest point of the closest edge of wall 1. -/
theorem C3_extend_projection_witness :
    extendFirstClick planExtend ⟨1, 1⟩ = some (0, 0) ∧
    0 ≤ extendTargetIdx planExtend ⟨4, 22⟩ ∧
    ∃ e ∈ extendTargetEdges planExtend ⟨4, 22⟩,
      movedVertex planExtend 0 0 (⟨4, 22⟩ : Point ℚ) false =
        edgeNearest (extendSrcPt planExtend 0 0) e ∧
      0 ≤ (nearestPointOnSegment (extendSrcPt planExtend 0 0) e.1 e.2).2 ∧
      (nearestPointOnSegment (extendSrcPt planExtend 0 0) e.1 e.2).2 ≤ 1 ∧
      ∀ e2 ∈ extendTargetEdges planExtend ⟨4, 22⟩,
        edgeDist2 (extendSrcPt planExtend 0 0) e ≤ edgeDist2 (extendSrcPt planExtend 0 0) e2 := by
  have ha : extendFirstClick planExtend ⟨1, 1⟩ = some (0, 0) := by
    norm_num [extendFirstClick, planExtend, pickWall, pickWallLoop, pointInPolygon, pipLoop,
      List.rotate, scanEdges, edgesOf, nearestPointOnSegment, dist2, dot, sub, add, mul,
      pickVertex, pickVertexLoop, ltInfty, leInfty]
  have hb : 0 ≤ extendTargetIdx planExtend (⟨4, 22⟩ : Point ℚ) := by
    norm_num [extendTargetIdx, planExtend, pickWall, pickWallLoop, pointInPolygon, pipLoop,
      List.rotate, scanEdges, edgesOf, nearestPointOnSegment, dist2, dot, sub, add, mul,
      ltInfty, leInfty]
  exact ⟨ha, hb, C3_extend_projection planExtend ⟨1, 1⟩ ⟨4, 22⟩ 0 0 ha hb⟩

/-- C9: every plan value the editor emits through its commit callback — from
the move-wall drag, the move-vertex drag, delete, draw finalization, or extend
— has `doors`, `windows`, `rooms`, and `dimensions` identical to those of the
input plan; only the `walls` array may differ. -/
theorem C9_commits_preserve_non_walls :
    (∀ (plan : Plan K) (selWall : ℕ) (startPt p : Point K) (snap : Bool),
      (moveWallCommit plan selWall startPt p snap).doors = plan.doors ∧
      (moveWallCommit plan selWall startPt p snap).windows = plan.windows ∧
      (moveWallCommit plan selWall startPt p snap).rooms = plan.rooms ∧
      (moveWallCommit plan selWall startPt p snap).dimensions = plan.dimensions) ∧
    (∀ (plan : Plan K) (selWall vertex : ℕ) (p : Point K) (snap : Bool),
      (moveVertexCommit plan selWall vertex p snap).doors = plan.doors ∧
      (moveVertexCommit plan selWall vertex p snap).windows = plan.windows ∧
      (moveVertexCommit plan selWall vertex p snap).rooms = plan.rooms ∧
      (moveVertexCommit plan selWall vertex p snap).dimensions = plan.dimensions) ∧
    (∀ (plan : Plan K) (p : Point K),
      (deleteCommit plan p).doors = plan.doors ∧
      (deleteCommit plan p).windows = plan.windows ∧
      (deleteCommit plan p).rooms = plan.rooms ∧
      (deleteCommit plan p).dimensions = plan.dimensions) ∧
    (∀ (sq : K → K) (plan : Plan K) (startPt endPt : Point K) (th : K),
      (drawCommit sq plan startPt endPt th).doors = plan.doors ∧
      (drawCommit sq plan startPt endPt th).windows = plan.windows ∧
      (drawCommit sq plan startPt endPt th).rooms = plan.rooms ∧
      (drawCommit sq plan startPt endPt th).dimensions = plan.dimensions) ∧
    (∀ (plan : Plan K) (src : ℕ × ℕ) (p : Point K) (snap : Bool),
      (extendSecondClick plan src p snap).doors = plan.doors ∧
      (extendSecondClick plan src p snap).windows = plan.windows ∧
      (extendSecondClick plan src p snap).rooms = plan.rooms ∧
      (extendSecondClick plan src p snap).dimensions = plan.dimensions) := by
  refine ⟨fun plan s sp p b => ⟨rfl, rfl, rfl, rfl⟩,
          fun plan s vx p b => ⟨rfl, rfl, rfl, rfl⟩,
          ?_,
          fun sq plan sp ep th => ⟨rfl, rfl, rfl, rfl⟩,
          ?_⟩
  · intro plan p
    simp only [deleteCommit]
    split <;> exact ⟨rfl, rfl, rfl, rfl⟩
  · intro plan src p snap
    simp only [extendSecondClick]
    split <;> exact ⟨rfl, rfl, rfl, rfl⟩

end FloorPlan
